import Mathlib

/-!
Verification of the rehype copy-button injector (`rehypeCopyButton` and
`extractTextFromNode` from the Vite configuration file) against its
specification.  The hast document tree is shallowly embedded as a nested
inductive; the injector's in-place mutation of `node.children` is modelled
by pure functions that return the rewritten node, which is exactly the
value the JavaScript code stores back into the parent's child list.
-/

namespace Rehype

/-- Value of a hast `properties` entry: either a plain string or a list of
strings (as used for `className`). -/
inductive PropVal where
  | str : String → PropVal
  | strs : List String → PropVal
deriving DecidableEq, Repr

/-- A hast-like document tree node.  JavaScript nodes are duck-typed
objects; the fields the source code ever reads are `type`, `tagName`,
`value`, `properties` and `children`, so a node is embedded as exactly
that record (fields that a given node kind does not carry are the empty
string or the empty list). -/
inductive Node where
  | mk : String → String → String → List (String × PropVal) → List Node → Node
deriving Repr

/-- The `type` field of a node. -/
def Node.ntype : Node → String
  | .mk t _ _ _ _ => t

/-- The `tagName` field of a node. -/
def Node.tagName : Node → String
  | .mk _ t _ _ _ => t

/-- The `value` field of a node (text payload of `text` nodes). -/
def Node.value : Node → String
  | .mk _ _ v _ _ => v

/-- The `properties` field of a node. -/
def Node.props : Node → List (String × PropVal)
  | .mk _ _ _ p _ => p

/-- The `children` field of a node (absent children are the empty list). -/
def Node.children : Node → List Node
  | .mk _ _ _ _ c => c

mutual

/-- Boolean equality on nodes, structural. -/
def Node.beq : Node → Node → Bool
  | .mk t1 g1 v1 p1 c1, .mk t2 g2 v2 p2 c2 =>
    t1 == t2 && g1 == g2 && v1 == v2 && p1 == p2 && Node.beqList c1 c2

/-- Boolean equality on lists of nodes, structural. -/
def Node.beqList : List Node → List Node → Bool
  | [], [] => true
  | a :: as, b :: bs => Node.beq a b && Node.beqList as bs
  | _, _ => false

end

/-- The predicate of the source's `children?.find(...)` call: an `element`
node tagged `code`. -/
def isCodeChild (c : Node) : Bool :=
  c.ntype == "element" && c.tagName == "code"

/-- The guard at the top of the source's `visit`: when `node` is an
`element` tagged `pre`, the first child that is an `element` tagged
`code` (the source's `codeElement`), otherwise `none`. -/
def preCodeChild (n : Node) : Option Node :=
  if n.ntype == "element" && n.tagName == "pre" then n.children.find? isCodeChild else none

mutual

/-- Source `extractTextFromNode`: a `text` node yields its `value`; any
other node yields the concatenation of the extractions of its children
(`node.children.map(extractTextFromNode).join('')`, the empty string when
there are no children). -/
def extractTextFromNode : Node → String
  | .mk ty _ v _ cs => if ty == "text" then v else extractTextList cs

/-- Concatenation of `extractTextFromNode` over a child list, i.e. the
source's `children.map(extractTextFromNode).join('')`. -/
def extractTextList : List Node → String
  | [] => ""
  | c :: cs => extractTextFromNode c ++ extractTextList cs

end


end Rehype

namespace Rehype

/-- The first `svg` child of the copy button (the idle "copy" icon),
embedded verbatim from the source object literal. -/
def copyIcon : Node :=
  .mk "element" "svg" ""
    [("className", .strs ["copy-icon"]), ("width", .str "16"), ("height", .str "16"),
     ("viewBox", .str "0 0 24 24"), ("fill", .str "none"), ("stroke", .str "currentColor"),
     ("strokeWidth", .str "2"), ("strokeLinecap", .str "round"), ("strokeLinejoin", .str "round")]
    [.mk "element" "rect" ""
       [("width", .str "14"), ("height", .str "14"), ("x", .str "8"), ("y", .str "8"),
        ("rx", .str "2"), ("ry", .str "2")] [],
     .mk "element" "path" ""
       [("d", .str "m4 16c-1.1 0-2-.9-2-2V4c0-1.1.9-2 2-2h10c1.1 0 2 .9 2 2")] []]

/-- The second `svg` child of the copy button (the initially hidden
"copied" check icon), embedded verbatim from the source object literal. -/
def checkIcon : Node :=
  .mk "element" "svg" ""
    [("className", .strs ["check-icon", "hidden"]), ("width", .str "16"), ("height", .str "16"),
     ("viewBox", .str "0 0 24 24"), ("fill", .str "none"), ("stroke", .str "currentColor"),
     ("strokeWidth", .str "2"), ("strokeLinecap", .str "round"), ("strokeLinejoin", .str "round")]
    [.mk "element" "polyline" "" [("points", .str "20,6 9,17 4,12")] []]

/-- The source's `copyButton` object literal, as a function of the
extracted code text that the source stores in `data-code`. -/
def copyButton (codeText : String) : Node :=
  .mk "element" "button" ""
    [("className", .strs ["copy-code-button"]), ("data-code", .str codeText),
     ("title", .str "Copy code")]
    [copyIcon, checkIcon]

/-- The source's `container` object literal: a `div` wrapping the original
`pre` node followed by the copy button. -/
def container (n : Node) (btn : Node) : Node :=
  .mk "element" "div" "" [("className", .strs ["code-block-container", "group"])] [n, btn]

mutual

/-- The source's recursive `visit` closure, as the value it returns (which
is what the parent's `node.children = node.children.map(visit)` stores
back).  A `pre` element with a `code` child is replaced by the container
(its own children are not visited); every other node keeps its fields and
has its children rewritten recursively. -/
def visit : Node → Node
  | .mk ty tag v pr cs =>
    match preCodeChild (.mk ty tag v pr cs) with
    | some code => container (.mk ty tag v pr cs) (copyButton (extractTextFromNode code))
    | none => .mk ty tag v pr (visitList cs)

/-- `visit` mapped over a child list (the source's
`node.children.map(visit)`). -/
def visitList : List Node → List Node
  | [] => []
  | c :: cs => visit c :: visitList cs

end

/-- One run of the injector on a tree: the source calls `visit(tree)` and
discards the returned value, so the tree is changed only through the
`node.children = node.children.map(visit)` mutations.  When the root
itself is a `pre` with a `code` child, `visit` returns the fresh container
before any mutation, so the tree is untouched; otherwise the root keeps
its fields and its children are rewritten by `visit`. -/
def rehypeCopyButton : Node → Node
  | .mk ty tag v pr cs =>
    match preCodeChild (.mk ty tag v pr cs) with
    | some _ => .mk ty tag v pr cs
    | none => .mk ty tag v pr (visitList cs)

/-- Look up a key in a node's `properties`. -/
def getProp (n : Node) (k : String) : Option PropVal :=
  match n.props.find? (fun kv => kv.1 == k) with
  | some kv => some kv.2
  | none => none

/-- The node at a child-index path, `[]` being the node itself. -/
def getPath : Node → List Nat → Option Node
  | n, [] => some n
  | n, i :: p =>
    match n.children.get? i with
    | some c => getPath c p
    | none => none

/-- All strict ancestors of the node at the given path (the path's proper
initial segments, the root included) fail the injector's `pre`-with-`code`
guard. -/
def ancestorsClear : Node → List Nat → Bool
  | _, [] => true
  | n, i :: p =>
    (preCodeChild n).isNone &&
      (match n.children.get? i with
       | some c => ancestorsClear c p
       | none => true)

mutual

/-- Whether the subtree contains any `element` node tagged `pre`. -/
def hasPre : Node → Bool
  | .mk ty tag _ _ cs => (ty == "element" && tag == "pre") || hasPreList cs

/-- `hasPre` over a child list. -/
def hasPreList : List Node → Bool
  | [] => false
  | c :: cs => hasPre c || hasPreList cs

end

mutual

/-- Modelled from the spec: the leaf text payloads under a node, in
document (depth-first) order — a `text` node contributes its payload, an
element contributes its children's payloads in order. -/
def specLeafTexts : Node → List String
  | .mk ty _ v _ cs => if ty == "text" then [v] else specLeafTextsList cs

/-- `specLeafTexts` over a child list, in order. -/
def specLeafTextsList : List Node → List String
  | [] => []
  | c :: cs => specLeafTexts c ++ specLeafTextsList cs

end

/-- Concatenation of a list of strings, in order. -/
def joinAll : List String → String
  | [] => ""
  | s :: ss => s ++ joinAll ss

mutual

/-- Instrumentation of `visit`: the relative paths of the nodes on which
`visit` is invoked during one run.  A node failing the guard contributes
itself and, recursively, its children's visit paths; a node passing the
guard contributes only itself (the source returns the container at once,
so neither the matched node's children nor the container's children are
visited). -/
def visitPaths : Node → List (List Nat)
  | .mk ty tag v pr cs =>
    match preCodeChild (.mk ty tag v pr cs) with
    | some _ => [[]]
    | none => [] :: visitPathsList 0 cs

/-- `visitPaths` over a child list starting at child index `i`. -/
def visitPathsList : Nat → List Node → List (List Nat)
  | _, [] => []
  | i, c :: cs => (visitPaths c).map (fun p => i :: p) ++ visitPathsList (i + 1) cs

end

/-- A text node. -/
def tnode (s : String) : Node := .mk "text" "" s [] []

/-- An element node with a tag and children and no properties. -/
def el (tag : String) (cs : List Node) : Node := .mk "element" tag "" [] cs

/-- The spec's extraction example: `code["const ", span["x"], " = 1;"]`. -/
def exCode2 : Node := el "code" [tnode "const ", el "span" [tnode "x"], tnode " = 1;"]

/-- A `code` element holding the text "a". -/
def codeA : Node := el "code" [tnode "a"]

/-- A bare `pre` block with a `code` child, used as a whole input tree. -/
def preRootA : Node := el "pre" [codeA]

/-- An inner `code` element holding the text "y". -/
def codeY : Node := el "code" [tnode "y"]

/-- A `pre` block nested inside the `code` child of another `pre` block. -/
def preInner : Node := el "pre" [codeY]

/-- A tree whose only top-level child is a `pre` block whose `code` child
contains another `pre` block. -/
def nestedPreTree : Node := .mk "root" "" "" [] [el "pre" [el "code" [preInner]]]

/-- A `code` element with no children at all (empty text content). -/
def codeEmpty : Node := el "code" []

/-- A `pre` block whose `code` child is empty. -/
def preEmpty : Node := el "pre" [codeEmpty]

/-- A tree with the empty-code `pre` block nested inside a block-quote. -/
def bqTree : Node := .mk "root" "" "" [] [el "blockquote" [preEmpty]]

/-- A tree with one code block, input of the double-application example. -/
def exTree3 : Node := .mk "root" "" "" [] [el "pre" [el "code" [tnode "abc"]]]

/-- A `code` element holding the text "b". -/
def codeB : Node := el "code" [tnode "b"]

/-- A `pre` block with a `code` child holding "b". -/
def preB : Node := el "pre" [codeB]

/-- A tree with one code block, used for the double-application witness. -/
def exTree3w : Node := .mk "root" "" "" [] [preB]

/-- A node whose `type` is neither `element` nor `text`, containing a
well-formed code block. -/
def malNode : Node := .mk "custom" "" "" [] [el "pre" [el "code" [tnode "a"]]]

/-- A tree whose only top-level child is the malformed node. -/
def malTree : Node := .mk "root" "" "" [] [malNode]

/-- A tree containing no `pre` element at all. -/
def noPreTree : Node := .mk "root" "" "" [] [el "p" [tnode "hi"], el "blockquote" [el "em" [tnode "q"]]]

/-- A `pre` block directly containing only text (no `code` child). -/
def preNoCode : Node := el "pre" [tnode "raw"]

/-- A tree with one code block, used for the traversal counterexample. -/
def exTree7 : Node := .mk "root" "" "" [] [el "pre" [el "code" [tnode "x"]]]

/-- A `code` element holding the text "z". -/
def codeZ : Node := el "code" [tnode "z"]

/-- A `pre` block with a `code` child holding "z", used as a whole tree. -/
def preRootZ : Node := el "pre" [codeZ]

end Rehype

namespace Rehype

mutual

theorem Node.beq_iff : ∀ a b : Node, (Node.beq a b = true) ↔ a = b
  | .mk t1 g1 v1 p1 c1, .mk t2 g2 v2 p2 c2 => by
    simp only [Node.beq, Bool.and_eq_true, beq_iff_eq, Node.mk.injEq]
    rw [Node.beqList_iff c1 c2]
    tauto

theorem Node.beqList_iff : ∀ as bs : List Node, (Node.beqList as bs = true) ↔ as = bs
  | [], [] => by simp [Node.beqList]
  | [], _ :: _ => by simp [Node.beqList]
  | _ :: _, [] => by simp [Node.beqList]
  | a :: as, b :: bs => by
    simp only [Node.beqList, Bool.and_eq_true, List.cons.injEq]
    rw [Node.beq_iff a b, Node.beqList_iff as bs]

end

instance : DecidableEq Node := fun a b => decidable_of_iff (Node.beq a b = true) (Node.beq_iff a b)

theorem visit_matched {n code : Node} (h : preCodeChild n = some code) :
    visit n = container n (copyButton (extractTextFromNode code)) := by
  cases n with
  | mk ty tag v pr cs => simp only [visit, h]

theorem visit_unmatched {ty tag v pr : _} {cs : List Node}
    (h : preCodeChild (.mk ty tag v pr cs) = none) :
    visit (.mk ty tag v pr cs) = .mk ty tag v pr (visitList cs) := by
  simp only [visit, h]

theorem run_matched {n code : Node} (h : preCodeChild n = some code) :
    rehypeCopyButton n = n := by
  cases n with
  | mk ty tag v pr cs => simp only [rehypeCopyButton, h]

theorem run_eq_visit {n : Node} (h : preCodeChild n = none) :
    rehypeCopyButton n = visit n := by
  cases n with
  | mk ty tag v pr cs => simp only [rehypeCopyButton, visit, h]

theorem preCodeChild_some {n code : Node} (h : preCodeChild n = some code) :
    n.ntype = "element" ∧ n.tagName = "pre" ∧ n.children.find? isCodeChild = some code := by
  unfold preCodeChild at h
  split at h
  · rename_i hg
    simp only [Bool.and_eq_true, beq_iff_eq] at hg
    exact ⟨hg.1, hg.2, h⟩
  · exact absurd h (by simp)

theorem visitList_get? : ∀ (cs : List Node) (i : Nat), (visitList cs).get? i = (cs.get? i).map visit
  | [], i => by simp [visitList]
  | c :: cs, 0 => by simp [visitList]
  | c :: cs, i + 1 => by
    simp only [visitList, List.get?_cons_succ]
    exact visitList_get? cs i

theorem getPath_append : ∀ (p q : List Nat) (n : Node),
    getPath n (p ++ q) = (getPath n p).bind (fun m => getPath m q)
  | [], q, n => rfl
  | i :: p, q, n => by
    simp only [List.cons_append, getPath]
    cases n.children.get? i with
    | none => rfl
    | some c => exact getPath_append p q c

theorem getPath_visit : ∀ (p : List Nat) (n target code : Node),
    ancestorsClear n p = true → getPath n p = some target → preCodeChild target = some code →
    getPath (visit n) p = some (container target (copyButton (extractTextFromNode code)))
  | [], n, target, code => by
    intro _ hg hm
    obtain rfl : n = target := by simpa [getPath] using hg
    rw [visit_matched hm]
    rfl
  | i :: p, n, target, code => by
    intro hac hg hm
    cases n with
    | mk ty tag v pr cs =>
      simp only [ancestorsClear, Bool.and_eq_true, Option.isNone_iff_eq_none] at hac
      obtain ⟨h1, h2⟩ := hac
      cases hc : cs.get? i with
      | none =>
        simp only [getPath, Node.children, hc] at hg
        exact absurd hg (by simp)
      | some c =>
        have hg' : getPath c p = some target := by
          simpa only [getPath, Node.children, hc] using hg
        have hac' : ancestorsClear c p = true := by
          simpa only [Node.children, hc] using h2
        rw [visit_unmatched h1]
        simp only [getPath, Node.children, visitList_get?, hc, Option.map_some']
        exact getPath_visit p c target code hac' hg' hm

theorem run_wraps (t : Node) (p : List Nat) (target code : Node) (hp : p ≠ [])
    (hac : ancestorsClear t p = true) (hg : getPath t p = some target)
    (hm : preCodeChild target = some code) :
    getPath (rehypeCopyButton t) p = some (container target (copyButton (extractTextFromNode code))) := by
  cases p with
  | nil => exact absurd rfl hp
  | cons i p =>
    cases t with
    | mk ty tag v pr cs =>
      have h1 : preCodeChild (Node.mk ty tag v pr cs) = none := by
        simp only [ancestorsClear, Bool.and_eq_true, Option.isNone_iff_eq_none] at hac
        exact hac.1
      rw [run_eq_visit h1]
      exact getPath_visit (i :: p) _ target code hac hg hm

theorem isCodeChild_visit (c : Node) : isCodeChild (visit c) = isCodeChild c := by
  cases c with
  | mk ty tag v pr cs =>
    cases h : preCodeChild (.mk ty tag v pr cs) with
    | none =>
      rw [visit_unmatched h]
      rfl
    | some code =>
      rw [visit_matched h]
      obtain ⟨hty, htag, _⟩ := preCodeChild_some h
      simp only [Node.ntype] at hty
      simp only [Node.tagName] at htag
      subst hty htag
      rfl

theorem find?_visitList_none : ∀ cs : List Node,
    cs.find? isCodeChild = none → (visitList cs).find? isCodeChild = none
  | [], _ => rfl
  | c :: cs, h => by
    have hc : isCodeChild c = false := by
      cases hic : isCodeChild c with
      | false => rfl
      | true =>
        rw [List.find?_cons_of_pos _ hic] at h
        exact absurd h (by simp)
    have hcs : cs.find? isCodeChild = none := by
      rwa [List.find?_cons_of_neg _ (by simp [hc])] at h
    show List.find? isCodeChild (visit c :: visitList cs) = none
    rw [List.find?_cons_of_neg _ (by simp [isCodeChild_visit, hc])]
    exact find?_visitList_none cs hcs

theorem preCodeChild_visit_none {n : Node} (h : preCodeChild n = none) :
    preCodeChild (visit n) = none := by
  cases n with
  | mk ty tag v pr cs =>
    rw [visit_unmatched h]
    unfold preCodeChild at h ⊢
    simp only [Node.ntype, Node.tagName, Node.children] at h ⊢
    split at h
    · rename_i hg
      rw [if_pos hg]
      exact find?_visitList_none cs h
    · rename_i hg
      rw [if_neg hg]

theorem ancestorsClear_visit : ∀ (p : List Nat) (n target code : Node),
    ancestorsClear n p = true → getPath n p = some target → preCodeChild target = some code →
    ancestorsClear (visit n) (p ++ [0]) = true
  | [], n, target, code => by
    intro _ hg hm
    obtain rfl : n = target := by simpa [getPath] using hg
    rw [visit_matched hm]
    rfl
  | i :: p, n, target, code => by
    intro hac hg hm
    cases n with
    | mk ty tag v pr cs =>
      simp only [ancestorsClear, Bool.and_eq_true, Option.isNone_iff_eq_none] at hac
      obtain ⟨h1, h2⟩ := hac
      cases hc : cs.get? i with
      | none =>
        simp only [getPath, Node.children, hc] at hg
        exact absurd hg (by simp)
      | some c =>
        have hg' : getPath c p = some target := by
          simpa only [getPath, Node.children, hc] using hg
        have hac' : ancestorsClear c p = true := by
          simpa only [Node.children, hc] using h2
      
        have hpre : preCodeChild (visit (Node.mk ty tag v pr cs)) = none := preCodeChild_visit_none h1
        rw [visit_unmatched h1] at hpre
        rw [visit_unmatched h1]
        show ancestorsClear (Node.mk ty tag v pr (visitList cs)) (i :: (p ++ [0])) = true
        simp only [ancestorsClear, Bool.and_eq_true, Option.isNone_iff_eq_none, Node.children,
          visitList_get?, hc, Option.map_some']
        exact ⟨hpre, ancestorsClear_visit p c target code hac' hg' hm⟩

theorem ancestorsClear_run (t : Node) (p : List Nat) (target code : Node) (hp : p ≠ [])
    (hac : ancestorsClear t p = true) (hg : getPath t p = some target)
    (hm : preCodeChild target = some code) :
    ancestorsClear (rehypeCopyButton t) (p ++ [0]) = true := by
  cases p with
  | nil => exact absurd rfl hp
  | cons i p =>
    cases t with
    | mk ty tag v pr cs =>
      have h1 : preCodeChild (Node.mk ty tag v pr cs) = none := by
        simp only [ancestorsClear, Bool.and_eq_true, Option.isNone_iff_eq_none] at hac
        exact hac.1
      rw [run_eq_visit h1]
      exact ancestorsClear_visit (i :: p) _ target code hac hg hm

theorem joinAll_append : ∀ a b : List String, joinAll (a ++ b) = joinAll a ++ joinAll b
  | [], b => by simp [joinAll, String.empty_append]
  | s :: a, b => by
    show s ++ joinAll (a ++ b) = (s ++ joinAll a) ++ joinAll b
    rw [joinAll_append a b, String.append_assoc]

mutual

theorem extract_eq_spec : ∀ n : Node, extractTextFromNode n = joinAll (specLeafTexts n)
  | .mk ty tag v pr cs => by
    simp only [extractTextFromNode, specLeafTexts]
    cases h : (ty == "text") with
    | true => simp [h, joinAll, String.append_empty]
    | false =>
      simp only [h, Bool.false_eq_true, if_false]
      exact extractList_eq_spec cs

theorem extractList_eq_spec : ∀ cs : List Node, extractTextList cs = joinAll (specLeafTextsList cs)
  | [] => rfl
  | c :: cs => by
    simp only [extractTextList, specLeafTextsList, joinAll_append]
    rw [extract_eq_spec c, extractList_eq_spec cs]

end

mutual

theorem visit_id_of_no_pre : ∀ n : Node, hasPre n = false → visit n = n
  | .mk ty tag v pr cs => by
    intro h
    simp only [hasPre, Bool.or_eq_false_iff] at h
    obtain ⟨h1, h2⟩ := h
    have hpc : preCodeChild (Node.mk ty tag v pr cs) = none := by
      unfold preCodeChild
      simp only [Node.ntype, Node.tagName]
      rw [if_neg (by simp [h1])]
    rw [visit_unmatched hpc, visitList_id_of_no_pre cs h2]

theorem visitList_id_of_no_pre : ∀ cs : List Node, hasPreList cs = false → visitList cs = cs
  | [], _ => rfl
  | c :: cs, h => by
    simp only [hasPreList, Bool.or_eq_false_iff] at h
    simp only [visitList]
    rw [visit_id_of_no_pre c h.1, visitList_id_of_no_pre cs h.2]

end

theorem visitPaths_matched {n code : Node} (h : preCodeChild n = some code) :
    visitPaths n = [[]] := by
  cases n with
  | mk ty tag v pr cs => simp only [visitPaths, h]

theorem mem_visitPathsList : ∀ (cs : List Node) (i : Nat) (q : List Nat),
    q ∈ visitPathsList i cs ↔ ∃ j c p, cs.get? j = some c ∧ p ∈ visitPaths c ∧ q = (i + j) :: p
  | [], i, q => by simp [visitPathsList]
  | c :: cs, i, q => by
    simp only [visitPathsList, List.mem_append, List.mem_map, mem_visitPathsList cs (i + 1) q]
    constructor
    · rintro (⟨p, hp, rfl⟩ | ⟨j, c', p, hg, hp, rfl⟩)
      · exact ⟨0, c, p, rfl, hp, by simp⟩
      · refine ⟨j + 1, c', p, by simpa using hg, hp, ?_⟩
        rw [show i + 1 + j = i + (j + 1) by omega]
    · rintro ⟨j, c', p, hg, hp, rfl⟩
      cases j with
      | zero =>
        obtain rfl : c = c' := by simpa using hg
        exact Or.inl ⟨p, hp, by simp⟩
      | succ j =>
        refine Or.inr ⟨j, c', p, by simpa using hg, hp, ?_⟩
        rw [show i + 1 + j = i + (j + 1) by omega]

mutual

theorem visitPaths_nodup : ∀ n : Node, (visitPaths n).Nodup
  | .mk ty tag v pr cs => by
    simp only [visitPaths]
    split
    · exact List.nodup_singleton _
    · rw [List.nodup_cons]
      refine ⟨fun hmem => ?_, visitPathsList_nodup cs 0⟩
      rw [mem_visitPathsList] at hmem
      obtain ⟨j, c, p, _, _, h⟩ := hmem
      exact List.noConfusion h

theorem visitPathsList_nodup : ∀ (cs : List Node) (i : Nat), (visitPathsList i cs).Nodup
  | [], _ => List.nodup_nil
  | c :: cs, i => by
    simp only [visitPathsList]
    refine List.Nodup.append ?_ (visitPathsList_nodup cs (i + 1)) ?_
    · exact (visitPaths_nodup c).map (fun p q h => by injection h)
    · intro q hq hq'
      obtain ⟨p, _, rfl⟩ := List.mem_map.mp hq
      rw [mem_visitPathsList] at hq'
      obtain ⟨j, c', p', _, _, h⟩ := hq'
      injection h with h1 _
      omega

end

mutual

theorem visitPaths_valid : ∀ (n : Node) (p : List Nat),
    p ∈ visitPaths n → (getPath n p).isSome = true
  | .mk ty tag v pr cs, p => by
    intro hp
    simp only [visitPaths] at hp
    split at hp
    · obtain rfl : p = [] := by simpa using hp
      rfl
    · rcases List.mem_cons.mp hp with rfl | hp
      · rfl
      · obtain ⟨j, c, p', hg, hv, rfl⟩ := visitPathsList_valid cs 0 p hp
        rw [show (0 : Nat) + j = j by omega]
        simpa only [getPath, Node.children, hg] using hv

theorem visitPathsList_valid : ∀ (cs : List Node) (i : Nat) (q : List Nat),
    q ∈ visitPathsList i cs →
    ∃ j c p, cs.get? j = some c ∧ (getPath c p).isSome = true ∧ q = (i + j) :: p
  | [], _, q => by intro h; simp [visitPathsList] at h
  | c :: cs, i, q => by
    intro hq
    rcases List.mem_append.mp hq with hl | hr
    · obtain ⟨p, hp, rfl⟩ := List.mem_map.mp hl
      exact ⟨0, c, p, rfl, visitPaths_valid c p hp, by simp⟩
    · obtain ⟨j, c', p, hg, hv, rfl⟩ := visitPathsList_valid cs (i + 1) q hr
      refine ⟨j + 1, c', p, by simpa using hg, hv, ?_⟩
      rw [show i + 1 + j = i + (j + 1) by omega]

end

mutual

theorem visitPaths_compl : ∀ (n : Node) (p : List Nat) (target : Node),
    getPath n p = some target → ancestorsClear n p = true → p ∈ visitPaths n
  | .mk ty tag v pr cs, [], target => by
    intro _ _
    simp only [visitPaths]
    split
    · simp
    · simp

  | .mk ty tag v pr cs, i :: p, target => by
    intro hg hac
    simp only [ancestorsClear, Bool.and_eq_true, Option.isNone_iff_eq_none] at hac
    obtain ⟨h1, h2⟩ := hac
    cases hc : cs.get? i with
    | none =>
      simp only [getPath, Node.children, hc] at hg
      exact absurd hg (by simp)
    | some c =>
      have hg' : getPath c p = some target := by
        simpa only [getPath, Node.children, hc] using hg
      have hac' : ancestorsClear c p = true := by
        simpa only [Node.children, hc] using h2
      cases n' : preCodeChild (Node.mk ty tag v pr cs) with
      | some code => exact absurd n' (by simp [h1])
      | none =>
        simp only [visitPaths, n']
        refine List.mem_cons.mpr (Or.inr ?_)
        have := visitPathsList_compl cs 0 i c p target hc hg' hac'
        simpa only [Nat.zero_add] using this

theorem visitPathsList_compl : ∀ (cs : List Node) (i j : Nat) (c : Node) (p : List Nat) (target : Node),
    cs.get? j = some c → getPath c p = some target → ancestorsClear c p = true →
    (i + j) :: p ∈ visitPathsList i cs
  | [], _, j, c, p, target => by
    intro h _ _
    simp at h
  | c0 :: cs, i, 0, c, p, target => by
    intro hg hp hac
    obtain rfl : c0 = c := by simpa using hg
    simp only [visitPathsList, List.mem_append]
    exact Or.inl (List.mem_map.mpr ⟨p, visitPaths_compl c0 p target hp hac, by simp⟩)
  | c0 :: cs, i, j + 1, c, p, target => by
    intro hg hp hac
    simp only [visitPathsList, List.mem_append]
    refine Or.inr ?_
    have := visitPathsList_compl cs (i + 1) j c p target (by simpa using hg) hp hac
    rw [show i + 1 + j = i + (j + 1) by omega] at this
    exact this

end

theorem visitList_append : ∀ as bs : List Node, visitList (as ++ bs) = visitList as ++ visitList bs
  | [], _ => rfl
  | a :: as, bs =>
    congrArg (fun l => visit a :: l) (visitList_append as bs)

theorem extractTextList_eq_join_map : ∀ cs : List Node,
    extractTextList cs = joinAll (cs.map extractTextFromNode)
  | [] => rfl
  | c :: cs => by
    simp only [extractTextList, List.map_cons, joinAll]
    rw [extractTextList_eq_join_map cs]

/-- Claim C1 counterexample: the claim quantifies over `pre` elements at
any depth, but (a) a `pre`-with-`code` tree root is returned unchanged and
never wrapped, and (b) a `pre` nested below another matched `pre` is
relocated inside the outer container without being wrapped itself. -/
theorem claim_C1_counterexample :
    preCodeChild preRootA = some codeA ∧
    rehypeCopyButton preRootA = preRootA ∧
    getPath (rehypeCopyButton nestedPreTree) [0, 0, 0, 0] = some preInner ∧
    preCodeChild preInner = some codeY := by decide

/-- Claim C1 (amended): every `pre` element with a `code` child lying
strictly below the root, none of whose ancestors is itself a matched
`pre`-with-`code` block, is after one run wrapped in exactly one container
whose children are the untouched original block followed by the copy
control, and the control's `data-code` attribute is the concatenation of
all leaf text payloads under the original code child in document order
(the empty string for an empty code child). -/
theorem claim_C1 (t : Node) (p : List Nat) (target code : Node) (hp : p ≠ [])
    (hac : ancestorsClear t p = true) (hg : getPath t p = some target)
    (hm : preCodeChild target = some code) :
    getPath (rehypeCopyButton t) p =
      some (container target (copyButton (extractTextFromNode code))) ∧
    (container target (copyButton (extractTextFromNode code))).children.get? 1 =
      some (copyButton (extractTextFromNode code)) ∧
    getProp (copyButton (extractTextFromNode code)) "data-code" =
      some (PropVal.str (joinAll (specLeafTexts code))) := by
  refine ⟨run_wraps t p target code hp hac hg hm, rfl, ?_⟩
  have h : getProp (copyButton (extractTextFromNode code)) "data-code" =
      some (PropVal.str (extractTextFromNode code)) := rfl
  rw [h, extract_eq_spec code]

/-- Claim C1 witness: in a tree holding an empty code block inside a
block-quote, the block at path [0, 0] is wrapped and the copy control
carries the empty string. -/
theorem claim_C1_witness :
    getPath (rehypeCopyButton bqTree) [0, 0] =
      some (container preEmpty (copyButton (extractTextFromNode codeEmpty))) ∧
    getProp (copyButton (extractTextFromNode codeEmpty)) "data-code" =
      some (PropVal.str "") := by
  have h := claim_C1 bqTree [0, 0] preEmpty codeEmpty (by decide) (by decide) (by decide)
    (by decide)
  exact ⟨h.1, by rw [h.2.2]; decide⟩

/-- Claim C2: text extraction returns a text node's literal payload,
concatenates the extractions of an element's children depth-first in
order, agrees with the concatenation of the leaf text payloads, and on
the subtree code["const ", span["x"], " = 1;"] yields "const x = 1;". -/
theorem claim_C2 :
    (∀ tag v pr cs, extractTextFromNode (Node.mk "text" tag v pr cs) = v) ∧
    (∀ tag v pr cs, extractTextFromNode (Node.mk "element" tag v pr cs) =
      joinAll (cs.map extractTextFromNode)) ∧
    extractTextFromNode exCode2 = "const x = 1;" ∧
    (∀ n : Node, extractTextFromNode n = joinAll (specLeafTexts n)) :=
  ⟨fun _ _ _ _ => rfl, fun _ _ _ cs => extractTextList_eq_join_map cs, by decide, extract_eq_spec⟩

/-- Claim C3 counterexample: a second run of the injector on its own
output changes the tree again, so double application is not the identity. -/
theorem claim_C3_counterexample :
    rehypeCopyButton (rehypeCopyButton exTree3) ≠ rehypeCopyButton exTree3 := by decide

/-- Claim C3 (amended): the pass has no guard against already-generated
containers, so a second run wraps every matched `pre` block again: the
block sitting at child 0 of its container after the first run is wrapped
in a fresh container by the second run. -/
theorem claim_C3 (t : Node) (p : List Nat) (target code : Node) (hp : p ≠ [])
    (hac : ancestorsClear t p = true) (hg : getPath t p = some target)
    (hm : preCodeChild target = some code) :
    getPath (rehypeCopyButton (rehypeCopyButton t)) (p ++ [0]) =
      some (container target (copyButton (extractTextFromNode code))) := by
  have h1 := run_wraps t p target code hp hac hg hm
  have hg1 : getPath (rehypeCopyButton t) (p ++ [0]) = some target := by
    rw [getPath_append, h1]
    rfl
  have hac1 := ancestorsClear_run t p target code hp hac hg hm
  exact run_wraps (rehypeCopyButton t) (p ++ [0]) target code (by simp) hac1 hg1 hm

/-- Claim C3 witness: double-wrapping observed concretely at path [0, 0]
after two runs. -/
theorem claim_C3_witness :
    getPath (rehypeCopyButton (rehypeCopyButton exTree3w)) [0, 0] =
      some (container preB (copyButton (extractTextFromNode codeB))) :=
  claim_C3 exTree3w [0] preB codeB (by decide) (by decide) (by decide) (by decide)

/-- Claim C4 counterexample: a subtree rooted at a node of unrecognized
type is not left unchanged — the pass recurses into it and wraps a code
block found below it. -/
theorem claim_C4_counterexample :
    malNode.ntype ≠ "element" ∧ malNode.ntype ≠ "text" ∧
    getPath malTree [0] = some malNode ∧
    getPath (rehypeCopyButton malTree) [0] ≠ some malNode := by decide

/-- Claim C4 (amended): a node of unrecognized type is itself preserved
(its `type`, tag, value and properties are kept) while traversal
continues into its children, which may still be transformed; sibling
subtrees are rewritten independently of it, and the total pass never
aborts. -/
theorem claim_C4 (ty tag v : String) (pr : List (String × PropVal)) (cs : List Node)
    (h1 : ty ≠ "element") (_h2 : ty ≠ "text") :
    visit (Node.mk ty tag v pr cs) = Node.mk ty tag v pr (visitList cs) ∧
    ∀ before after : List Node,
      visitList (before ++ Node.mk ty tag v pr cs :: after) =
        visitList before ++ Node.mk ty tag v pr (visitList cs) :: visitList after := by
  have hpc : preCodeChild (Node.mk ty tag v pr cs) = none := by
    unfold preCodeChild
    simp only [Node.ntype, Node.tagName]
    rw [if_neg (by simp [h1])]
  refine ⟨visit_unmatched hpc, fun before after => ?_⟩
  rw [visitList_append]
  simp only [visitList]
  rw [visit_unmatched hpc]

/-- Claim C4 witness: the amended statement at the concrete malformed
node of the counterexample. -/
theorem claim_C4_witness :
    visit (Node.mk "custom" "" "" [] [el "pre" [el "code" [tnode "a"]]]) =
      Node.mk "custom" "" "" [] (visitList [el "pre" [el "code" [tnode "a"]]]) :=
  (claim_C4 "custom" "" "" [] [el "pre" [el "code" [tnode "a"]]] (by decide) (by decide)).1

/-- Claim C5: a tree containing no `element` node tagged `pre` is returned
by the injector exactly as it was — no container and no copy control is
introduced anywhere. -/
theorem claim_C5 (t : Node) (h : hasPre t = false) : rehypeCopyButton t = t := by
  cases t with
  | mk ty tag v pr cs =>
    simp only [hasPre, Bool.or_eq_false_iff] at h
    have hpc : preCodeChild (Node.mk ty tag v pr cs) = none := by
      unfold preCodeChild
      simp only [Node.ntype, Node.tagName]
      rw [if_neg (by simp [h.1])]
    rw [run_eq_visit hpc, visit_unmatched hpc, visitList_id_of_no_pre cs h.2]

/-- Claim C5 witness: a concrete `pre`-free tree is returned unchanged. -/
theorem claim_C5_witness :
    hasPre noPreTree = false ∧ rehypeCopyButton noPreTree = noPreTree :=
  ⟨by decide, claim_C5 noPreTree (by decide)⟩

/-- Claim C6: a `pre` element with no `code` child is left as a `pre`
with all its own fields intact (no container is created for it) and
traversal still descends into its children as usual. -/
theorem claim_C6 (v : String) (pr : List (String × PropVal)) (cs : List Node)
    (h : cs.find? isCodeChild = none) :
    visit (Node.mk "element" "pre" v pr cs) = Node.mk "element" "pre" v pr (visitList cs) := by
  have hpc : preCodeChild (Node.mk "element" "pre" v pr cs) = none := by
    unfold preCodeChild
    simp only [Node.ntype, Node.tagName, Node.children]
    rw [if_pos (by decide)]
    exact h
  exact visit_unmatched hpc

/-- Claim C6 witness: a `pre` holding only text passes through with its
text child untouched. -/
theorem claim_C6_witness :
    visit preNoCode = Node.mk "element" "pre" "" [] (visitList [tnode "raw"]) :=
  claim_C6 "" [] [tnode "raw"] (by decide)

/-- Claim C7 counterexample: the `code` child of a matched `pre` exists in
the input tree (path [0, 0]) but is never visited, so the traversal does
not visit every node of the input exactly once. -/
theorem claim_C7_counterexample :
    (getPath exTree7 [0, 0]).isSome = true ∧
    [0, 0] ∉ visitPaths exTree7 ∧
    visitPaths exTree7 = [[], [0]] := by decide

/-- Claim C7 (amended): the traversal terminates and visits each input
node at most once; every visited path is a real node of the input; a node
all of whose strict ancestors fail the guard is visited exactly once; and
a matched block contributes only its own visit — its descendants and the
created container's children are never re-visited, so there is no
double-processing and no infinite recursion. -/
theorem claim_C7 (n : Node) :
    (visitPaths n).Nodup ∧
    (∀ p, p ∈ visitPaths n → (getPath n p).isSome = true) ∧
    (∀ p target, getPath n p = some target → ancestorsClear n p = true → p ∈ visitPaths n) ∧
    (∀ code, preCodeChild n = some code → visitPaths n = [[]]) :=
  ⟨visitPaths_nodup n, visitPaths_valid n,
   fun p target hg hac => visitPaths_compl n p target hg hac,
   fun _ h => visitPaths_matched h⟩

/-- Claim C7 witness: the amended statement evaluated on a concrete tree. -/
theorem claim_C7_witness :
    (visitPaths exTree7).Nodup ∧
    (getPath exTree7 [0]).isSome = true ∧
    [] ∈ visitPaths exTree7 ∧
    visitPaths (el "pre" [el "code" [tnode "x"]]) = [[]] :=
  ⟨(claim_C7 exTree7).1,
   (claim_C7 exTree7).2.1 [0] (by decide),
   (claim_C7 exTree7).2.2.1 [] exTree7 (by decide) (by decide),
   (claim_C7 (el "pre" [el "code" [tnode "x"]])).2.2.2 (el "code" [tnode "x"]) (by decide)⟩

/-- Claim C8: every synthesized copy control carries the stable class
marker `copy-code-button`, the extracted code text verbatim in its
`data-code` attribute, and the human-readable `title` label; every
synthesized container carries the stable class marker
`code-block-container group`. -/
theorem claim_C8 (s : String) (n btn : Node) :
    getProp (copyButton s) "className" = some (PropVal.strs ["copy-code-button"]) ∧
    getProp (copyButton s) "data-code" = some (PropVal.str s) ∧
    getProp (copyButton s) "title" = some (PropVal.str "Copy code") ∧
    getProp (container n btn) "className" =
      some (PropVal.strs ["code-block-container", "group"]) :=
  ⟨rfl, rfl, rfl, rfl⟩

/-- Claim C9: the injector is a pure function of the input tree — two
runs on equal inputs produce equal outputs (no randomness, timestamps or
I/O occur in the embedding). -/
theorem claim_C9 (t1 t2 : Node) (h : t1 = t2) :
    rehypeCopyButton t1 = rehypeCopyButton t2 := by rw [h]

/-- Claim C9 witness: determinism at a concrete tree. -/
theorem claim_C9_witness : rehypeCopyButton exTree3 = rehypeCopyButton exTree3 :=
  claim_C9 exTree3 exTree3 rfl

/-- Claim C10: when the tree root passed to the injector is itself a
`pre` element with a `code` child, the run leaves the tree unchanged —
the container built by `visit` is discarded because a replacement only
takes effect through a parent's child list. -/
theorem claim_C10 (t code : Node) (h : preCodeChild t = some code) :
    rehypeCopyButton t = t :=
  run_matched h

/-- Claim C10 witness: a `pre`-with-`code` root passes through unchanged. -/
theorem claim_C10_witness :
    preCodeChild preRootZ = some codeZ ∧ rehypeCopyButton preRootZ = preRootZ :=
  ⟨by decide, claim_C10 preRootZ codeZ (by decide)⟩

end Rehype
